import Mathlib

/-!
Verification of the `collect!` literal-construction facility
(`src/lib.rs`, `tests/collect-std.rs`).

The embedding covers:
* `SizeHintIter<T>` and its `Iterator` implementation (`next`, `size_hint`);
  the `usize` subtraction `self.count -= 1` underflows when `count = 0`, and
  that panic is modelled as the `none` outcome of `next`;
* the two iterator shapes the macro feeds to `Extend::extend`:
  a `SizeHintIter` and `Some(v).into_iter()`;
* the simplified `Extend for Vec` implementation quoted in the crate
  documentation, over a vector model that tracks length and capacity;
* the `@collect` internal rule of `collect!`, with its `cb` observation hook
  (used by `check_growth!` in `tests/collect-std.rs` to record capacities),
  and the public empty-list and map rules.
-/

namespace CollectMac

/-- The struct `SizeHintIter<T>` (src/lib.rs): public fields
`item: Option<T>` and `count: usize`. -/
structure SizeHintIter (T : Type) where
  item : Option T
  count : Nat
deriving DecidableEq, Repr

/-- Method `Iterator::next` for `SizeHintIter` (src/lib.rs):
`match self.item.take() { Some(v) => { self.count -= 1; Some(v) }, None => None }`.
`count -= 1` is a `usize` subtraction: when `count = 0` it underflows and the
call panics instead of returning; that outcome is modelled as `none`.
Otherwise the result is the element yielded (if any) and the updated state. -/
def SizeHintIter.next {T : Type} (it : SizeHintIter T) :
    Option (Option T × SizeHintIter T) :=
  match it.item with
  | some v =>
    if it.count = 0 then
      none
    else
      some (some v, { item := none, count := it.count - 1 })
  | none => some (none, it)

/-- Method `Iterator::size_hint` for `SizeHintIter` (src/lib.rs):
`(self.count, Some(self.count))`.  The receiver is `&self`, so the call
leaves the iterator unchanged; the model is a pure read of `count`. -/
def SizeHintIter.size_hint {T : Type} (it : SizeHintIter T) : Nat × Option Nat :=
  (it.count, some it.count)

/-- A sequence source fed to `Extend::extend` by the `@collect` expansion:
either the `SizeHintIter` built for the first element, or
`Some(v).into_iter()` (the `core::option::IntoIter`) for a later element. -/
inductive ExtSource (T : Type) where
  | hintIter : SizeHintIter T → ExtSource T
  | optIter : Option T → ExtSource T
deriving DecidableEq, Repr

/-- Method `Iterator::next` of the source: dispatches to `SizeHintIter::next` or to
`Option::IntoIter::next` (which takes the held option). -/
def ExtSource.next {T : Type} : ExtSource T → Option (Option T × ExtSource T)
  | .hintIter it =>
    (it.next).map (fun p => (p.1, .hintIter p.2))
  | .optIter o => some (o, .optIter none)

/-- Method `Iterator::size_hint` of the source: `SizeHintIter::size_hint`, or the
exact 0/1 hint of `Option::IntoIter`. -/
def ExtSource.size_hint {T : Type} : ExtSource T → Nat × Option Nat
  | .hintIter it => it.size_hint
  | .optIter (some _) => (1, some 1)
  | .optIter none => (0, some 0)

/-- Number of elements a source can still yield (both shapes hold at most
one); the termination measure for loops that drain a source. -/
def ExtSource.weight {T : Type} : ExtSource T → Nat
  | .hintIter it => it.item.elim 0 (fun _ => 1)
  | .optIter o => o.elim 0 (fun _ => 1)

/-- A source that has just yielded an element got lighter (the termination
argument for loops that drain a source). -/
def ExtSource.weight_lt_of_next_some {T : Type} {it it' : ExtSource T} {e : T}
    (h : it.next = some (some e, it')) : it'.weight < it.weight := by
  cases it with
  | hintIter s =>
    rcases s with ⟨item, count⟩
    cases item with
    | some v =>
      by_cases hc : count = 0 <;>
        simp [ExtSource.next, SizeHintIter.next, hc] at h
      rcases h with ⟨_, h2⟩
      subst h2
      simp [ExtSource.weight, Option.elim]
    | none =>
      simp [ExtSource.next, SizeHintIter.next] at h
  | optIter o =>
    simp [ExtSource.next] at h
    rcases h with ⟨_, h2⟩
    subst h2
    cases o <;> simp_all [ExtSource.weight, Option.elim]

/-- The list of elements a source yields when drained by repeated `next`
calls, in order; `none` propagates a panic of `next`. -/
def ExtSource.drain {T : Type} (it : ExtSource T) : Option (List T) :=
  match h : it.next with
  | none => none
  | some (none, _) => some []
  | some (some e, it') => (it'.drain).map (fun l => e :: l)
termination_by it.weight
decreasing_by exact ExtSource.weight_lt_of_next_some h

/-- A model of `Vec<T>` observing contents and capacity.  `Vec` itself is an
outside collaborator; only the fields the tests observe (`len`, `capacity`,
elements in order) are modelled. -/
structure VecModel (T : Type) where
  data : List T
  cap : Nat
deriving DecidableEq, Repr

/-- Constructor `Vec::new()` / `Default::default()`: empty, capacity 0. -/
def VecModel.new {T : Type} : VecModel T := { data := [], cap := 0 }

/-- Method `Vec::len()`. -/
def VecModel.len {T : Type} (v : VecModel T) : Nat := v.data.length

/-- Modelled from the spec: the `reserve` operation of a qualifying container
(`Vec::reserve` is outside this repository).  Per the spec, a qualifying
container "pre-reserves capacity for at least its source sequence's reported
lower-bound size estimate": `reserve(additional)` does nothing when capacity
is already sufficient for `len + additional` elements, and otherwise grows
the capacity according to the container's own allocation policy `grow`
(constrained, where theorems need it, to reserve at least the requested
amount). -/
def VecModel.reserve {T : Type} (grow : Nat → Nat → Nat) (v : VecModel T)
    (additional : Nat) : VecModel T :=
  if v.cap < v.len + additional then { v with cap := grow v.len additional } else v

/-- Method `Vec::push`, in the regime where capacity is already sufficient
(the quoted `Extend` loop reserves before every push that would overflow). -/
def VecModel.push {T : Type} (v : VecModel T) (x : T) : VecModel T :=
  { v with data := v.data ++ [x] }

/-- The simplified `Extend for Vec` quoted in src/lib.rs: draw elements with
`next`; before pushing, if `len == capacity`, query the iterator's
`size_hint` and `reserve(lower.saturating_add(1))` (saturation never fires in
the `Nat` model).  `grow` is the container's allocation policy, passed on to
`reserve`.  A panic of `next` propagates as `none`. -/
def VecModel.extend {T : Type} (grow : Nat → Nat → Nat) (v : VecModel T)
    (it : ExtSource T) : Option (VecModel T) :=
  match h : it.next with
  | none => none
  | some (none, _) => some v
  | some (some e, it') =>
    let v1 := if v.len = v.cap then v.reserve grow (it'.size_hint.1 + 1) else v
    (v1.push e).extend grow it'
termination_by it.weight
decreasing_by exact ExtSource.weight_lt_of_next_some h

/-- The `SizeHintIter` value the `@collect` rule constructs for a literal
with first element `v0` and remaining elements `vs`:
`SizeHintIter { item: Some($v0), count: NUM_ELEMS }`, where `NUM_ELEMS` is
the statically computed entry count `collect!(@count_tts ($v0) $(($vs))*)`. -/
def collectHintIter {T : Type} (v0 : T) (vs : List T) : SizeHintIter T :=
  { item := some v0, count := (v0 :: vs).length }

/-- The `@collect` internal rule of `collect!` (src/lib.rs), for a container
with default value `d` and `Extend` implementation `ext`, on a literal with
at least one element: default-construct the container; run the callback `cb`
(recording an observation, as `check_growth!` does with `col.capacity()`);
extend once with the `SizeHintIter` holding the first element and the full
count, then run `cb`; then, for each remaining element in order, extend with
`Some(v).into_iter()` and run `cb`.  The populated container and the
observation list are returned; a panic propagates as `none`. -/
def collectCore {T C A : Type} (d : C) (ext : C → ExtSource T → Option C)
    (cb : C → A) (v0 : T) (vs : List T) : Option (C × List A) := do
  let col := d
  let obs := [cb col]
  let col ← ext col (.hintIter (collectHintIter v0 vs))
  let obs := obs ++ [cb col]
  let r ← vs.foldlM
    (fun (p : C × List A) v => do
      let c ← ext p.1 (.optIter (some v))
      pure (c, p.2 ++ [cb c]))
    (col, obs)
  pure r

/-- The `collect!` literal dispatch on an entry list: the empty-list rules
(`[] => { let col: $col_ty = Default::default(); col }`) return the
default-constructed container with no `extend` call; a non-empty list goes
through the `@collect` rule. -/
def collectLit {T C : Type} (d : C) (ext : C → ExtSource T → Option C) :
    List T → Option C
  | [] => some d
  | v0 :: vs => (collectCore d ext (fun _ => ()) v0 vs).map (fun p => p.1)

/-- An `Extend` implementation that incorporates the drained elements of the
source, in order, through the container's own single-element insertion
`ins` — the capability the spec requires of every target container
("a bulk-insertion operation accepting a sequence of elements and applying
them in order"). -/
def listExt {T C : Type} (ins : C → T → C) (c : C) (it : ExtSource T) :
    Option C :=
  (it.drain).map (fun l => l.foldl ins c)

/-- Map-like single-element insertion semantics — the destination container's
own key-uniqueness policy (`BTreeMap`/`HashMap` are outside collaborators):
inserting `(k, v)` overwrites the value stored at an existing key, otherwise
adds the new binding. -/
def mapInsert {K V : Type} [DecidableEq K] (m : List (K × V)) (kv : K × V) :
    List (K × V) :=
  if m.any (fun p => decide (p.1 = kv.1)) then
    m.map (fun p => if p.1 = kv.1 then (p.1, kv.2) else p)
  else m ++ [kv]

/-- Lookup in the association-map model. -/
def mapLookup {K V : Type} [DecidableEq K] (k : K) : List (K × V) → Option V
  | [] => none
  | p :: ps => if p.1 = k then some p.2 else mapLookup k ps

/-- The map rule of `collect!` (src/lib.rs): each `$ks => $vs` entry is
rewritten to the tuple `($ks, $vs)` and the rewritten list is fed to the
sequence rule — `collect![as $col_ty: $(($ks, $vs)),+]` — with the
destination container supplying `mapInsert` as its insertion semantics. -/
def collectMapLit {K V : Type} [DecidableEq K] (entries : List (K × V)) :
    Option (List (K × V)) :=
  collectLit [] (listExt mapInsert) (entries.map (fun e => (e.1, e.2)))

/-- An externally invokable operation on a `SizeHintIter`: a
`next` call or a `size_hint` query. -/
inductive HOp where
  | opNext : HOp
  | opHint : HOp
deriving DecidableEq, Repr

/-- Observation `size_hint` as a state transformer: the source signature is `&self`, so
the returned state is the receiver itself. -/
def sizeHintStep {T : Type} (it : SizeHintIter T) :
    (Nat × Option Nat) × SizeHintIter T :=
  (it.size_hint, it)

/-- Run a sequence of operations against a `SizeHintIter`, threading the
state and collecting the result of every `next` call in order; a panic of
`next` propagates as `none`. -/
def runOps {T : Type} : List HOp → SizeHintIter T → Option (SizeHintIter T × List (Option T))
  | [], it => some (it, [])
  | HOp.opNext :: ops, it => do
    let (o, it') ← it.next
    let (itF, outs) ← runOps ops it'
    pure (itF, o :: outs)
  | HOp.opHint :: ops, it => runOps ops (sizeHintStep it).2

/-- The number of `next` calls in an operation sequence. -/
def numNexts : List HOp → Nat
  | [] => 0
  | HOp.opNext :: ops => numNexts ops + 1
  | HOp.opHint :: ops => numNexts ops

/-! ### Evaluation lemmas for the drained sources and the `Vec` model -/

theorem drain_hintIter_succ {T : Type} (v : T) (n : Nat) :
    (ExtSource.hintIter (SizeHintIter.mk (some v) (n + 1))).drain = some [v] := by
  rw [ExtSource.drain]
  simp [ExtSource.next, SizeHintIter.next]
  rw [ExtSource.drain]
  simp [ExtSource.next, SizeHintIter.next]

theorem drain_optIter_some {T : Type} (v : T) :
    (ExtSource.optIter (some v)).drain = some [v] := by
  rw [ExtSource.drain]
  simp [ExtSource.next]
  rw [ExtSource.drain]
  simp [ExtSource.next]

theorem extend_hintIter_succ {T : Type} (grow : Nat → Nat → Nat) (v : VecModel T)
    (e : T) (n : Nat) :
    v.extend grow (.hintIter (SizeHintIter.mk (some e) (n + 1))) =
      some ((if v.len = v.cap then v.reserve grow (n + 1) else v).push e) := by
  rw [VecModel.extend]
  simp [ExtSource.next, SizeHintIter.next, ExtSource.size_hint, SizeHintIter.size_hint]
  rw [VecModel.extend]
  simp [ExtSource.next, SizeHintIter.next]

theorem extend_optIter_some {T : Type} (grow : Nat → Nat → Nat) (v : VecModel T)
    (e : T) :
    v.extend grow (.optIter (some e)) =
      some ((if v.len = v.cap then v.reserve grow 1 else v).push e) := by
  rw [VecModel.extend]
  simp [ExtSource.next, ExtSource.size_hint]
  rw [VecModel.extend]
  simp [ExtSource.next]

/-! ### Helper lemmas about `runOps` -/

theorem runOps_hints {T : Type} (k : Nat) (it : SizeHintIter T) :
    runOps (List.replicate k HOp.opHint) it = some (it, []) := by
  induction k with
  | zero => rfl
  | succ k ih => simpa [List.replicate_succ, runOps, sizeHintStep] using ih

theorem runOps_drained {T : Type} (ops : List HOp) (it : SizeHintIter T)
    (h : it.item = none) :
    runOps ops it = some (it, List.replicate (numNexts ops) none) := by
  induction ops with
  | nil => rfl
  | cons op ops ih =>
    cases op with
    | opNext =>
      have hn : it.next = some (none, it) := by
        simp [SizeHintIter.next, h]
      simp [runOps, hn, ih, numNexts, List.replicate_succ]
    | opHint =>
      simpa [runOps, sizeHintStep, numNexts] using ih

/-! ### Helper lemmas about the generic expansion -/

theorem foldl_append_singleton {T : Type} (L : List T) :
    ∀ l : List T, L.foldl (fun c t => c ++ [t]) l = l ++ L := by
  induction L with
  | nil => simp
  | cons x L ih => intro l; simp [List.foldl_cons, ih]

theorem foldlM_listExt {T C A : Type} (ins : C → T → C) (cb : C → A) :
    ∀ (vs : List T) (c : C) (obs : List A),
      ∃ obs2 : List A,
        vs.foldlM
          (fun (p : C × List A) v => do
            let c2 ← listExt ins p.1 (ExtSource.optIter (some v))
            pure (c2, p.2 ++ [cb c2]))
          (c, obs) = some (vs.foldl ins c, obs2) := by
  intro vs
  induction vs with
  | nil => intro c obs; exact ⟨obs, rfl⟩
  | cons v vs ih =>
    intro c obs
    have hx : listExt ins c (ExtSource.optIter (some v)) = some (ins c v) := by
      simp [listExt, drain_optIter_some]
    obtain ⟨obs2, h2⟩ := ih (ins c v) (obs ++ [cb (ins c v)])
    refine ⟨obs2, ?_⟩
    simpa [List.foldlM_cons, hx, List.foldl_cons] using h2

theorem collectLit_listExt {T C : Type} (ins : C → T → C) (d : C) (L : List T) :
    collectLit d (listExt ins) L = some (L.foldl ins d) := by
  cases L with
  | nil => rfl
  | cons v0 vs =>
    have hx : listExt ins d (ExtSource.hintIter (collectHintIter v0 vs)) =
        some (ins d v0) := by
      simp [listExt, collectHintIter, drain_hintIter_succ]
    obtain ⟨obs2, h2⟩ := foldlM_listExt ins (fun _ => ()) vs (ins d v0) [(), ()]
    simp [collectLit, collectCore, hx, List.foldl_cons]
    exact ⟨obs2, by simpa using h2⟩

theorem foldlM_vec_caps {T : Type} (grow : Nat → Nat → Nat) :
    ∀ (vs2 l : List T) (obs : List Nat) (G : Nat),
      l.length + vs2.length ≤ G →
      vs2.foldlM
        (fun (p : VecModel T × List Nat) v => do
          let c ← VecModel.extend grow p.1 (ExtSource.optIter (some v))
          pure (c, p.2 ++ [VecModel.cap c]))
        (⟨l, G⟩, obs) =
      some (⟨l ++ vs2, G⟩, obs ++ List.replicate vs2.length G) := by
  intro vs2
  induction vs2 with
  | nil => intro l obs G _; simp
  | cons v vs2 ih =>
    intro l obs G hle
    simp only [List.length_cons] at hle
    have hlt : l.length < G := by omega
    have hstep : VecModel.extend grow (⟨l, G⟩ : VecModel T)
        (ExtSource.optIter (some v)) = some (⟨l ++ [v], G⟩ : VecModel T) := by
      rw [extend_optIter_some]
      simp [VecModel.len, VecModel.push, Nat.ne_of_lt hlt]
    have hrec := ih (l ++ [v]) (obs ++ [G]) G (by simp; omega)
    simp only [List.foldlM_cons, hstep, Option.some_bind]
    simpa [List.replicate_succ, List.append_assoc] using hrec

theorem foldlM_pair_fst {T C : Type} (ext : C → ExtSource T → Option C) :
    ∀ (vs : List T) (c : C) (obs : List Unit),
      (vs.foldlM
        (fun (p : C × List Unit) v => do
          let c2 ← ext p.1 (ExtSource.optIter (some v))
          pure (c2, p.2 ++ [()]))
        (c, obs)).map Prod.fst =
      vs.foldlM (fun c2 v => ext c2 (ExtSource.optIter (some v))) c := by
  intro vs
  induction vs with
  | nil => intro c obs; rfl
  | cons v vs ih =>
    intro c obs
    cases hx : ext c (ExtSource.optIter (some v)) with
    | none => simp [List.foldlM_cons, hx]
    | some c2 =>
      simp only [List.foldlM_cons, hx]
      simpa using ih c2 (obs ++ [()])

theorem numNexts_replicate (k : Nat) :
    numNexts (List.replicate k HOp.opNext) = k := by
  induction k with
  | zero => rfl
  | succ k ih => simp [List.replicate_succ, numNexts, ih]

/-! ## The claims -/

/-- C1: for every literal element list `L` (including the empty list), the
container built by the `collect!` expansion holds exactly the elements of
`L`, applied in source order through the destination container's own
insertion operation (`L.foldl ins d`); an order-preserving sequence
container, whose insertion appends at the end, ends up equal to `L`
itself. -/
theorem collect_roundtrip {T C : Type} (ins : C → T → C) (d : C) (L : List T) :
    collectLit d (listExt ins) L = some (L.foldl ins d) ∧
    collectLit ([] : List T) (listExt (fun c t => c ++ [t])) L = some L := by
  refine ⟨collectLit_listExt ins d L, ?_⟩
  rw [collectLit_listExt]
  simp [foldl_append_singleton]

/-- C3: for a `SizeHintIter` holding an element with total count `N ≥ 1`:
`size_hint` returns exactly `(N, N)` before `next` is called (any number of
queries leaves the state — hence the answer — unchanged); the one `next`
call yields the element; a `size_hint` call made after it returns
`(N − 1, N − 1)`, even though the iterator will produce no further
element. -/
theorem size_hint_before_after {T : Type} (v : T) (N k : Nat) (h : 0 < N) :
    (SizeHintIter.mk (some v) N).size_hint = (N, some N) ∧
    runOps (List.replicate k HOp.opHint) (SizeHintIter.mk (some v) N) =
      some (SizeHintIter.mk (some v) N, []) ∧
    (SizeHintIter.mk (some v) N).next =
      some (some v, SizeHintIter.mk none (N - 1)) ∧
    (SizeHintIter.mk (none : Option T) (N - 1)).size_hint =
      (N - 1, some (N - 1)) ∧
    (SizeHintIter.mk (none : Option T) (N - 1)).next =
      some (none, SizeHintIter.mk none (N - 1)) := by
  refine ⟨rfl, runOps_hints k _, ?_, rfl, rfl⟩
  simp [SizeHintIter.next, Nat.pos_iff_ne_zero.mp h]

theorem size_hint_before_after_witness :
    (SizeHintIter.mk (some 7) 3).size_hint = (3, some 3) ∧
    runOps (List.replicate 2 HOp.opHint) (SizeHintIter.mk (some 7) 3) =
      some (SizeHintIter.mk (some 7) 3, []) ∧
    (SizeHintIter.mk (some 7) 3).next = some (some 7, SizeHintIter.mk none 2) ∧
    (SizeHintIter.mk (none : Option Nat) 2).size_hint = (2, some 2) ∧
    (SizeHintIter.mk (none : Option Nat) 2).next =
      some (none, SizeHintIter.mk none 2) :=
  size_hint_before_after 7 3 2 (by decide)

/-- C4: after one `next` call that yields the held element, the drained
state (element absent) is terminal: every further `next` returns `none`
("no more elements") and the state never re-enters the loaded state,
regardless of how many `size_hint` queries are interleaved in the operation
sequence. -/
theorem drained_terminal {T : Type} (v : T) (N : Nat) (ops : List HOp)
    (h : 0 < N) :
    (SizeHintIter.mk (some v) N).next =
      some (some v, SizeHintIter.mk none (N - 1)) ∧
    runOps ops (SizeHintIter.mk (none : Option T) (N - 1)) =
      some (SizeHintIter.mk none (N - 1),
        List.replicate (numNexts ops) none) := by
  refine ⟨?_, runOps_drained ops _ rfl⟩
  simp [SizeHintIter.next, Nat.pos_iff_ne_zero.mp h]

theorem drained_terminal_witness :
    (SizeHintIter.mk (some 4) 2).next =
      some (some 4, SizeHintIter.mk none 1) ∧
    runOps [HOp.opNext, HOp.opHint, HOp.opNext]
        (SizeHintIter.mk (none : Option Nat) 1) =
      some (SizeHintIter.mk none 1, [none, none]) :=
  drained_terminal 4 2 [HOp.opNext, HOp.opHint, HOp.opNext] (by decide)

/-- C7: the empty-list form yields exactly the default-constructed
container, for every container and every `Extend` implementation: no
insertion operation is performed, so the result does not depend on the
`Extend` implementation at all and cannot fail. -/
theorem collect_empty_default {T C : Type} (d : C)
    (ext : C → ExtSource T → Option C) :
    collectLit d ext ([] : List T) = some d := rfl

/-- C8: `next` on a loaded iterator decrements the `usize` field `count`;
when `count = 0` while the element is present (a state the public fields
allow), the subtraction underflows and the call does not return normally
(the `none` outcome).  Under the macro's own use the iterator is created
holding the first element with `count = N ≥ 1`, so that branch is
unreachable there. -/
theorem next_underflow_and_unreachable {T : Type} (it : SizeHintIter T)
    (v v0 : T) (vs : List T) (h1 : it.item = some v) (h2 : it.count = 0) :
    it.next = none ∧
    (collectHintIter v0 vs).item = some v0 ∧
    0 < (collectHintIter v0 vs).count := by
  refine ⟨?_, rfl, by simp [collectHintIter]⟩
  simp [SizeHintIter.next, h1, h2]

theorem next_underflow_witness :
    (SizeHintIter.mk (some 9) 0).next = none ∧
    (collectHintIter (1 : Nat) [2]).item = some 1 ∧
    0 < (collectHintIter (1 : Nat) [2]).count :=
  next_underflow_and_unreachable (SizeHintIter.mk (some 9) 0) 9 1 [2] rfl rfl

/-- C9: `next` on a drained iterator (held element absent) returns
"no more elements" and leaves the entire state — the `count` field
included — unchanged, so after exhaustion the size estimate stays fixed no
matter how many further `next` calls are made. -/
theorem drained_frame {T : Type} (it : SizeHintIter T) (k : Nat)
    (h : it.item = none) :
    it.next = some (none, it) ∧
    runOps (List.replicate k HOp.opNext) it =
      some (it, List.replicate k none) ∧
    (runOps (List.replicate k HOp.opNext) it).map
        (fun p => SizeHintIter.size_hint p.1) =
      some (it.count, some it.count) := by
  have hrun := runOps_drained (List.replicate k HOp.opNext) it h
  rw [numNexts_replicate] at hrun
  refine ⟨by simp [SizeHintIter.next, h], hrun, ?_⟩
  rw [hrun]
  rfl

theorem drained_frame_witness :
    (SizeHintIter.mk (none : Option Nat) 2).next =
      some (none, SizeHintIter.mk none 2) ∧
    runOps [HOp.opNext, HOp.opNext, HOp.opNext]
        (SizeHintIter.mk (none : Option Nat) 2) =
      some (SizeHintIter.mk none 2, [none, none, none]) ∧
    (runOps [HOp.opNext, HOp.opNext, HOp.opNext]
        (SizeHintIter.mk (none : Option Nat) 2)).map
        (fun p => SizeHintIter.size_hint p.1) =
      some (2, some 2) :=
  drained_frame (SizeHintIter.mk (none : Option Nat) 2) 3 rfl

/-- C2: for a container whose bulk-insertion pre-reserves capacity from the
queried size estimate on the first `Extend` call (any allocation policy
`grow` reserving at least the requested amount), constructing from a
non-empty literal of `N = vs.length + 1` elements records the capacity
sequence `init_cap :: replicate N final_cap`: the capacity moves from the
default-construction capacity directly to the final capacity in one step,
and does not change on any of the `N − 1` subsequent single-element
insertions — exactly one capacity-expanding allocation. -/
theorem collect_single_allocation {T : Type} (grow : Nat → Nat → Nat)
    (v0 : T) (vs : List T) (hg : ∀ l a, l + a ≤ grow l a) :
    collectCore VecModel.new (VecModel.extend grow) VecModel.cap v0 vs =
      some (⟨v0 :: vs, grow 0 (vs.length + 1)⟩,
        (VecModel.new : VecModel T).cap ::
          List.replicate (vs.length + 1) (grow 0 (vs.length + 1))) := by
  have hfirst : VecModel.extend grow (VecModel.new : VecModel T)
      (ExtSource.hintIter (collectHintIter v0 vs)) =
      some (⟨[v0], grow 0 (vs.length + 1)⟩ : VecModel T) := by
    have : collectHintIter v0 vs = SizeHintIter.mk (some v0) (vs.length + 1) := by
      simp [collectHintIter]
    rw [this, extend_hintIter_succ]
    simp [VecModel.new, VecModel.len, VecModel.reserve, VecModel.push]
  have hfold := foldlM_vec_caps grow vs [v0]
    [(VecModel.new : VecModel T).cap, grow 0 (vs.length + 1)]
    (grow 0 (vs.length + 1))
    (by
      have h2 := hg 0 (vs.length + 1)
      simp only [List.length_singleton]
      omega)
  simp only [collectCore, hfirst, Option.some_bind, VecModel.cap] at *
  simpa [List.replicate_succ] using hfold

theorem collect_single_allocation_witness :
    collectCore VecModel.new (VecModel.extend (fun l a => l + a)) VecModel.cap
        (10 : Nat) [20, 30] =
      some (⟨[10, 20, 30], 3⟩, [0, 3, 3, 3]) :=
  collect_single_allocation (fun l a => l + a) 10 [20, 30]
    (fun l a => Nat.le_refl (l + a))

/-- C5: for a literal with `N ≥ 1` entries, the expansion performs exactly:
default-construct the container; one `Extend` call whose source is the
`SizeHintIter` holding the first entry with `count = N`; then one `Extend`
call with the single-element source `Some(v).into_iter()` for each of the
remaining `N − 1` entries in source order; the populated container is the
result value. -/
theorem collect_expansion_steps {T C : Type} (d : C)
    (ext : C → ExtSource T → Option C) (v0 : T) (vs : List T) :
    collectLit d ext (v0 :: vs) =
      (ext d (ExtSource.hintIter
          (SizeHintIter.mk (some v0) (v0 :: vs).length))).bind
        (fun c =>
          vs.foldlM (fun c2 v => ext c2 (ExtSource.optIter (some v))) c) := by
  have hh : collectHintIter v0 vs =
      SizeHintIter.mk (some v0) (v0 :: vs).length := rfl
  cases hx : ext d (ExtSource.hintIter
      (SizeHintIter.mk (some v0) (v0 :: vs).length)) with
  | none =>
    simp only [List.length_cons] at hx
    simp [collectLit, collectCore, hh, hx]
  | some c =>
    simp only [List.length_cons] at hx
    simp only [collectLit, collectCore, hh, List.length_cons, hx,
      Option.some_bind, Option.bind_some]
    simpa using foldlM_pair_fst ext vs c [(), ()]

/-- C6: each `k => v` entry of a map literal is rewritten into the single
paired element `(k, v)` and fed to the sequence-construction path, so a
map-like container applies its own insertion to the pairs in source order
and duplicate keys resolve last-write-wins; the literal
`[1 => "one", 2 => "two", 1 => "uno"]` yields the map with key set `{1, 2}`
in which key `1` maps to `"uno"` (and key `2` to `"two"`). -/
theorem map_rule_last_write_wins {K V : Type} [DecidableEq K]
    (entries : List (K × V)) :
    collectMapLit entries = some (entries.foldl mapInsert []) ∧
    collectMapLit [((1 : Nat), "one"), (2, "two"), (1, "uno")] =
      some [(1, "uno"), (2, "two")] ∧
    mapLookup 1 [((1 : Nat), "uno"), (2, "two")] = some "uno" ∧
    mapLookup 2 [((1 : Nat), "uno"), (2, "two")] = some "two" ∧
    List.map Prod.fst [((1 : Nat), "uno"), (2, "two")] = [1, 2] := by
  have hgen : ∀ (K2 V2 : Type) (inst : DecidableEq K2)
      (es : List (K2 × V2)),
      collectMapLit es = some (es.foldl mapInsert []) := by
    intro K2 V2 inst es
    rw [collectMapLit]
    have : es.map (fun e => (e.1, e.2)) = es := by simp
    rw [this, collectLit_listExt]
  refine ⟨hgen K V _ entries, ?_, rfl, rfl, rfl⟩
  rw [hgen Nat String _ [((1 : Nat), "one"), (2, "two"), (1, "uno")]]
  rfl

/-- C10: `size_hint` never modifies the iterator: filtering every
`size_hint` query out of an operation sequence, or inserting one at any
point, changes neither the iterator states traversed nor any element
produced by `next` — so no later `next` result or size estimate is
affected. -/
theorem size_hint_pure_noninterference {T : Type}
    (ops ops1 ops2 : List HOp) (it : SizeHintIter T) :
    runOps ops it =
      runOps (ops.filter (fun o => decide (o = HOp.opNext))) it ∧
    runOps (ops1 ++ HOp.opHint :: ops2) it = runOps (ops1 ++ ops2) it := by
  constructor
  · induction ops generalizing it with
    | nil => rfl
    | cons op ops ih =>
      cases op with
      | opNext =>
        cases hx : it.next with
        | none => simp [runOps, hx]
        | some p => simp [runOps, hx, ih p.2]
      | opHint => simpa [runOps, sizeHintStep] using ih it
  · induction ops1 generalizing it with
    | nil => rfl
    | cons op ops1 ih =>
      cases op with
      | opNext =>
        cases hx : it.next with
        | none => simp [runOps, hx]
        | some p => simp [runOps, hx, ih p.2]
      | opHint => simpa [runOps, sizeHintStep] using ih it

end CollectMac
